import Mathlib

/-!
# Verification of the coingecko merge / clean pipeline

A shallow embedding of `code/merge_raw_by_coingecko_rank.py` and
`code/clean_coingecko_data.py`, together with theorems settling the frozen
claims about them.

Modelling conventions, shared by all definitions below:

* Python strings are Lean `String`s; Python's string comparison (by Unicode
  code point) and the ASCII-range part of `str.lower()` / `str.strip()` are
  modelled explicitly over `String.data` (the inputs handled by the scripts
  are ASCII tickers, filenames and ISO timestamps).
* Network I/O is an input of the model: every page of the primary API is a
  function from the retry-attempt index to the outcome `_request_text` +
  `json.loads` would produce on that attempt, and every fallback web page is
  the outcome of `_request_text` followed by the regex extraction
  (`row_pattern.findall` etc.), i.e. a list of per-`<tr>` match results.
* CSV parsing is abstracted: an input file is its filename, its
  `DictReader.fieldnames` and its rows as association lists.
* `time.sleep` is modelled by recording the requested delays (ℚ seconds).
* Python's `list.sort`/`sorted` are stable; they are modelled by
  `List.insertionSort` (also stable), with the same comparison.
-/

/-! ### Python string primitives -/

/-- ASCII-range case mapping of Python's `str.lower` (`A`-`Z` ↦ `a`-`z`,
everything else unchanged). -/
def pyCharLower (c : Char) : Char :=
  if 65 ≤ c.toNat ∧ c.toNat ≤ 90 then Char.ofNat (c.toNat + 32) else c

/-- Python `str.lower()` (restricted to its ASCII behaviour). -/
def pyLower (s : String) : String := ⟨s.data.map pyCharLower⟩

/-- Python's ASCII whitespace set, as used by `str.strip()`:
space, tab, LF, CR, VT, FF. -/
def pyIsSpace (c : Char) : Bool :=
  decide (c.toNat = 32) || decide (c.toNat = 9) || decide (c.toNat = 10) ||
    decide (c.toNat = 13) || decide (c.toNat = 11) || decide (c.toNat = 12)

/-- Strip leading and trailing whitespace from a character list. -/
def pyStripList (l : List Char) : List Char :=
  ((l.dropWhile pyIsSpace).reverse.dropWhile pyIsSpace).reverse

/-- Python `str.strip()` (no argument form). -/
def pyStrip (s : String) : String := ⟨pyStripList s.data⟩

/-- Python's `<` on strings: lexicographic comparison of code points, a
proper prefix being smaller. -/
def charListLt : List Char → List Char → Bool
  | [], [] => false
  | [], _ :: _ => true
  | _ :: _, [] => false
  | a :: as, b :: bs =>
    decide (a.toNat < b.toNat) || (decide (a.toNat = b.toNat) && charListLt as bs)

/-- Python string `<`. -/
def pyStrLt (a b : String) : Prop := charListLt a.data b.data = true

/-- Python string `≤` (total order: `a ≤ b` iff `¬ b < a`). -/
def pyStrLe (a b : String) : Prop := charListLt b.data a.data = false

instance (a b : String) : Decidable (pyStrLt a b) :=
  inferInstanceAs (Decidable (_ = true))

instance (a b : String) : Decidable (pyStrLe a b) :=
  inferInstanceAs (Decidable (_ = false))

/-! ### Data model (`RankedCoin`, the ranking map) -/

/-- One entry of the ranking map (`symbol_to_coin` values).  The Python code
stores all four fields as strings; `coin_rank` is written with `str(rank)`
when the map is built and read back with `int(...)` in the sort key, so it is
modelled directly as the number. -/
structure RankedCoin where
  coin_id : String
  coin_name : String
  coin_symbol : String
  coin_rank : Nat
deriving DecidableEq

/-- The ranking map: a Python `dict` in insertion order
(`symbol_to_coin`). -/
abbrev SymbolMap := List (String × RankedCoin)

/-- `symbol_to_coin.get(symbol)` / `symbol in symbol_to_coin`. -/
def lookupSym (m : SymbolMap) (s : String) : Option RankedCoin :=
  List.lookup s m

/-- The keys of the map are pairwise distinct (what being a `dict`
guarantees in Python). -/
def keysNodup (m : SymbolMap) : Prop := (m.map Prod.fst).Nodup

/-! ### Primary ranking source (`fetch_ranked_symbols`) -/

/-- The three exception classes caught by the scripts
(`HTTPError`, `URLError`, `TimeoutError`). -/
inductive NetErr
  | httpError
  | urlError
  | timeoutError
deriving DecidableEq

/-- One record of the JSON array returned by the markets endpoint, after
`json.loads`: the fields the code reads.  `row.get("symbol", "")` /
`row.get("id", "")` / `row.get("name", "")` (with `str(...)`) are the three
strings, `row.get("market_cap_rank")` is `none` when the key is absent or
null. -/
structure ApiRecord where
  symbol : String
  id : String
  name : String
  market_cap_rank : Option Nat
deriving DecidableEq

/-- One page of the primary endpoint, as an oracle: for retry attempt `i`
(0-based), the outcome `_request_text` + `json.loads` would produce. -/
structure ApiPage where
  fetch : Nat → Except NetErr (List ApiRecord)

/-- `time.sleep(1.5 * (attempt + 1))`: the delay requested after failed
attempt number `attempt` (0-based), in seconds. -/
def backoffDelay (attempt : Nat) : ℚ := 3 / 2 * (attempt + 1)

/-- The retry loop `for attempt in range(3)` around one page request:
result of the page fetch, plus the list of backoff delays slept.  The error
of the third failed attempt is re-raised. -/
def retryRequest (fetch : Nat → Except NetErr α) : Except NetErr α × List ℚ :=
  match fetch 0 with
  | .ok p => (.ok p, [])
  | .error _ =>
    match fetch 1 with
    | .ok p => (.ok p, [backoffDelay 0])
    | .error _ =>
      match fetch 2 with
      | .ok p => (.ok p, [backoffDelay 0, backoffDelay 1])
      | .error e => (.error e, [backoffDelay 0, backoffDelay 1])

/-- The body of the `for row in data` loop of `fetch_ranked_symbols`:
lowercase and strip the symbol, skip it when empty or already present, skip
records without a usable rank, otherwise add the new entry. -/
def apiInsert (m : SymbolMap) (row : ApiRecord) : SymbolMap :=
  let symbol := pyStrip (pyLower row.symbol)
  if symbol = "" ∨ (lookupSym m symbol).isSome then m
  else
    match row.market_cap_rank with
    | none => m
    | some rank => m ++ [(symbol, ⟨row.id, row.name, symbol, rank⟩)]

/-- The page loop of `fetch_ranked_symbols`, threading the accumulated map.
Returns the result (or the propagated network error) together with the
number of HTTP requests issued.  An empty `data` payload breaks the loop. -/
def fetchApiGo (m : SymbolMap) : List ApiPage → Except NetErr SymbolMap × Nat
  | [] => (.ok m, 0)
  | page :: rest =>
    match retryRequest page.fetch with
    | (.error e, ds) => (.error e, ds.length + 1)
    | (.ok data, ds) =>
      if data = [] then (.ok m, ds.length + 1)
      else
        let out := fetchApiGo (data.foldl apiInsert m) rest
        (out.1, ds.length + 1 + out.2)

/-- `fetch_ranked_symbols`: the pages are the sequence of per-page fetch
oracles for `page = 1 .. max_pages`. -/
def fetch_ranked_symbols (pages : List ApiPage) : Except NetErr SymbolMap × Nat :=
  fetchApiGo [] pages

/-! ### Fallback ranking source (`fetch_ranked_symbols_from_web`) -/

/-- The per-`<tr>` regex match results inside one page of the fallback
scraper: `rank_pattern` (a digit string, as a number), `symbol_pattern`
(the raw `alt` attribute text), and the display name, modelled after
`unescape(name_match.group(1).strip()) if name_match else ""`. -/
structure ScrapedRow where
  rank_cell : Option Nat
  alt_text : Option String
  display_name : String
deriving DecidableEq

/-- One page of the fallback source: either a fetch failure or the list of
`row_pattern.findall` extraction results. -/
abbrev WebPage := Except NetErr (List ScrapedRow)

/-- The body of the `for row_html in rows` loop: skip rows without both a
rank and a symbol match, lowercase and strip the symbol, skip empty or
already-present symbols, otherwise add the entry (with empty `coin_id`) and
bump `page_added`. -/
def webRowStep (acc : SymbolMap × Nat) (row : ScrapedRow) : SymbolMap × Nat :=
  match row.rank_cell, row.alt_text with
  | some rank, some alt =>
    let symbol := pyStrip (pyLower alt)
    if symbol = "" ∨ (lookupSym acc.1 symbol).isSome then acc
    else (acc.1 ++ [(symbol, ⟨"", row.display_name, symbol, rank⟩)], acc.2 + 1)
  | _, _ => acc

/-- The page loop of `fetch_ranked_symbols_from_web`.  Returns the final map
and the number of pages fetched.  A fetch failure or a page without
extractable rows is skipped (`continue`); a page whose rows add zero new
entries breaks the loop. -/
def fetchWebGo (m : SymbolMap) : List WebPage → SymbolMap × Nat
  | [] => (m, 0)
  | .error _ :: rest =>
    let out := fetchWebGo m rest
    (out.1, out.2 + 1)
  | .ok rows :: rest =>
    if rows = [] then
      let out := fetchWebGo m rest
      (out.1, out.2 + 1)
    else
      let step := rows.foldl webRowStep (m, 0)
      if step.2 = 0 then (step.1, 1)
      else
        let out := fetchWebGo step.1 rest
        (out.1, out.2 + 1)

/-- `fetch_ranked_symbols_from_web`, over the pages `1 .. max_pages`. -/
def fetch_ranked_symbols_from_web (pages : List WebPage) : SymbolMap × Nat :=
  fetchWebGo [] pages

/-! ### File inventory (`list_input_files`, `parse_symbol_from_filename`) -/

/-- One discovered input file: its filename, its `DictReader.fieldnames`
(`[]` for an empty file, where `fieldnames` is `None`), and its data rows as
association lists from column name to cell text. -/
structure InputFile where
  name : String
  fieldnames : List String
  rows : List (List (String × String))
deriving DecidableEq

/-- Whether a filename matches `pathlib.Path.glob("*-usd-max.csv")`: the
`*` of `Path.glob` matches any run of characters of the filename, including
a leading dot, so the pattern accepts exactly the names with this suffix. -/
def matchesGlob (n : String) : Bool :=
  "-usd-max.csv".data.isSuffixOf n.data

/-- The sort comparison of `list_input_files`:
`key=lambda p: p.name.lower()`. -/
def fileLE (a b : InputFile) : Prop := pyStrLe (pyLower a.name) (pyLower b.name)

instance (a b : InputFile) : Decidable (fileLE a b) :=
  inferInstanceAs (Decidable (pyStrLe _ _))

/-- `list_input_files`: the glob-matching files of the directory listing,
sorted (stably) case-insensitively by filename. -/
def list_input_files (listing : List InputFile) : List InputFile :=
  (listing.filter fun f => matchesGlob f.name).insertionSort fileLE

/-- `parse_symbol_from_filename`:
`path.name[: -len("-usd-max.csv")].lower()`. -/
def parse_symbol_from_filename (name : String) : String :=
  pyLower ⟨name.data.take (name.data.length - "-usd-max.csv".data.length)⟩

/-! ### Merge engine (`build_merged_rows`) -/

/-- One merged output record: the five ranking/meta fields, plus the values
of the base-header columns (`{k: row.get(k, "") for k in base_headers}`,
in `base_headers` order). -/
structure MergedRow where
  coin_rank : Nat
  coin_id : String
  coin_name : String
  coin_symbol : String
  source_file : String
  fields : List (String × String)
deriving DecidableEq

/-- `row.get(k, "")` on a parsed CSV row. -/
def rowGet (row : List (String × String)) (k : String) : String :=
  (List.lookup k row).getD ""

/-- `symbol_to_coin.get(symbol)` with the placeholder substituted when the
symbol is absent: `coin_id=""`, `coin_name=""`, `coin_rank="999999"`. -/
def coinFor (m : SymbolMap) (symbol : String) : RankedCoin :=
  match lookupSym m symbol with
  | some c => c
  | none => ⟨"", "", symbol, 999999⟩

/-- Construction of one merged row from the coin metadata, the source
filename, the base headers in effect, and the raw row. -/
def mkMergedRow (coin : RankedCoin) (src : String) (base : List String)
    (row : List (String × String)) : MergedRow :=
  { coin_rank := coin.coin_rank, coin_id := coin.coin_id,
    coin_name := coin.coin_name, coin_symbol := coin.coin_symbol,
    source_file := src, fields := base.map fun k => (k, rowGet row k) }

/-- `item.get("snapped_at", "")` on a merged row: the field is present
exactly when `"snapped_at"` is among the base headers. -/
def snappedAt (r : MergedRow) : String := rowGet r.fields "snapped_at"

/-- The sort comparison of `all_rows.sort`: the composite key
`(int(coin_rank), coin_symbol, item.get("snapped_at", ""))`, compared as a
Python tuple. -/
def rowLE (a b : MergedRow) : Prop :=
  a.coin_rank < b.coin_rank ∨ (a.coin_rank = b.coin_rank ∧
    (pyStrLt a.coin_symbol b.coin_symbol ∨ (a.coin_symbol = b.coin_symbol ∧
      pyStrLe (snappedAt a) (snappedAt b))))

instance (a b : MergedRow) : Decidable (rowLE a b) := by
  unfold rowLE; infer_instance

/-- The `for file_path in files` loop of `build_merged_rows`, threading the
`base_headers` state (set from the current file's `fieldnames` whenever it
is still empty).  Returns the merged rows in ingestion order, the unmatched
filenames in file order, and the final `base_headers`. -/
def buildGo (m : SymbolMap) : List InputFile → List String →
    List MergedRow × List String × List String
  | [], base => ([], [], base)
  | f :: fs, base =>
    let symbol := parse_symbol_from_filename f.name
    let coin := coinFor m symbol
    let base' := if base = [] then f.fieldnames else base
    let fileRows := f.rows.map (mkMergedRow coin f.name base')
    let rest := buildGo m fs base'
    (fileRows ++ rest.1,
      (if (lookupSym m symbol).isNone then f.name :: rest.2.1 else rest.2.1),
      rest.2.2)

/-- The five fixed leading output columns. -/
def fixedHeaders : List String :=
  ["coin_rank", "coin_id", "coin_name", "coin_symbol", "source_file"]

/-- `build_merged_rows(files, symbol_to_coin)`:
`(output_headers, all_rows sorted, unmatched_files)`. -/
def build_merged_rows (files : List InputFile) (m : SymbolMap) :
    List String × List MergedRow × List String :=
  let out := buildGo m files []
  (fixedHeaders ++ out.2.2, out.1.insertionSort rowLE, out.2.1)

/-! ### The whole run (`main`) -/

/-- The two fatal conditions of `main`: `FileNotFoundError` when no input
file matches, `RuntimeError` when no ranking could be obtained. -/
inductive MergeError
  | noInputFiles
  | rankingUnavailable
deriving DecidableEq

/-- What a successful run produces (the data written to the output file and
the unmatched list that is printed). -/
structure RunResult where
  headers : List String
  rows : List MergedRow
  unmatched : List String
deriving DecidableEq

/-- `main()`: list the input files, abort if none; fetch the ranking from
the API, falling back to the web scraper only when the API path raises;
abort if the resulting map is empty; otherwise merge.  The second component
counts the network requests issued. -/
def mainRun (listing : List InputFile) (api : List ApiPage)
    (web : List WebPage) : Except MergeError RunResult × Nat :=
  let files := list_input_files listing
  if files = [] then (.error .noInputFiles, 0)
  else
    match fetch_ranked_symbols api with
    | (.ok m, n) =>
      if m = [] then (.error .rankingUnavailable, n)
      else
        let out := build_merged_rows files m
        (.ok ⟨out.1, out.2.1, out.2.2⟩, n)
    | (.error _, n) =>
      let wout := fetch_ranked_symbols_from_web web
      if wout.1 = [] then (.error .rankingUnavailable, n + wout.2)
      else
        let out := build_merged_rows files wout.1
        (.ok ⟨out.1, out.2.1, out.2.2⟩, n + wout.2)

/-! ### Snapshot cleaner (`clean_coingecko_data`) -/

/-- One row of the ranking-history snapshot.  The three numeric columns are
`none` when missing (pandas `NaN`); `snapped_at` is `none` when missing
(pandas turns it into `NaT`, which fails every `≥` comparison); `others`
holds all remaining columns in order. -/
structure SnapshotRow where
  price : Option String
  market_cap : Option String
  total_volume : Option String
  snapped_at : Option String
  others : List (String × String)
deriving DecidableEq

/-- `str.replace(" UTC", "")`: remove every occurrence of the 4-character
pattern, scanning left to right. -/
def stripUTCChars : List Char → List Char
  | ' ' :: 'U' :: 'T' :: 'C' :: rest => stripUTCChars rest
  | c :: rest => c :: stripUTCChars rest
  | [] => []

/-- Numeric value of an ASCII digit. -/
def digitVal (c : Char) : Nat := c.toNat - 48

/-- `pd.to_datetime` on the snapshot timestamps, at date granularity: an ISO
`YYYY-MM-DD` prefix (followed by nothing or by a space and a time-of-day),
with a calendar sanity check.  The cutoff is a midnight timestamp, so date
granularity decides every comparison the cleaner makes. -/
def parseDate (s : String) : Option (Nat × Nat × Nat) :=
  match s.data with
  | y1 :: y2 :: y3 :: y4 :: '-' :: m1 :: m2 :: '-' :: d1 :: d2 :: rest =>
    if ([y1, y2, y3, y4, m1, m2, d1, d2].all Char.isDigit)
        && (rest.isEmpty || rest.head? == some ' ') then
      let y := ((digitVal y1 * 10 + digitVal y2) * 10 + digitVal y3) * 10 + digitVal y4
      let mo := digitVal m1 * 10 + digitVal m2
      let d := digitVal d1 * 10 + digitVal d2
      if 1 ≤ mo ∧ mo ≤ 12 ∧ 1 ≤ d ∧ d ≤ 31 then some (y, mo, d) else none
    else none
  | _ => none

/-- Date comparison (lexicographic on year, month, day). -/
def dateLE (a b : Nat × Nat × Nat) : Prop :=
  a.1 < b.1 ∨ (a.1 = b.1 ∧ (a.2.1 < b.2.1 ∨ (a.2.1 = b.2.1 ∧ a.2.2 ≤ b.2.2)))

instance (a b : Nat × Nat × Nat) : Decidable (dateLE a b) := by
  unfold dateLE; infer_instance

/-- `pd.Timestamp("2020-02-19")`. -/
def cutoffDate : Nat × Nat × Nat := (2020, 2, 19)

/-- `df.dropna(subset=["price", "market_cap", "total_volume"])`: the rows
that survive. -/
def dropnaKeep (r : SnapshotRow) : Bool :=
  r.price.isSome && r.market_cap.isSome && r.total_volume.isSome

/-- The `" UTC"` removal plus `pd.to_datetime` over the surviving rows:
pairs each row (with its `snapped_at` rewritten to the stripped text) with
its parsed date, `none` standing for `NaT`.  An unparseable string makes
`to_datetime` raise, aborting the whole script (`none` result). -/
def convertDates : List SnapshotRow →
    Option (List (SnapshotRow × Option (Nat × Nat × Nat)))
  | [] => some []
  | r :: rs =>
    match r.snapped_at with
    | none => (convertDates rs).map (fun t => (r, none) :: t)
    | some s =>
      let s' : String := ⟨stripUTCChars s.data⟩
      match parseDate s' with
      | none => none
      | some d =>
        (convertDates rs).map (fun t => ({r with snapped_at := some s'}, some d) :: t)

/-- `df_clean["snapped_at"] >= cutoff_date` (false for `NaT`). -/
def keepSinceCutoff (t : SnapshotRow × Option (Nat × Nat × Nat)) : Bool :=
  match t.2 with
  | some d => decide (dateLE cutoffDate d)
  | none => false

/-- `clean_coingecko_data`: drop rows with a missing numeric value, convert
the timestamps, keep the rows at or after the cutoff.  `none` models the
script aborting on an unparseable timestamp. -/
def clean_coingecko_data (table : List SnapshotRow) : Option (List SnapshotRow) :=
  match convertDates (table.filter dropnaKeep) with
  | none => none
  | some dated => some ((dated.filter keepSinceCutoff).map (·.1))

/-- The per-row effect of the cleaner on a surviving row: only `snapped_at`
is rewritten (the `" UTC"` marker removed); every other column is kept
unchanged. -/
def transformSnapshotRow (r : SnapshotRow) : SnapshotRow :=
  match r.snapped_at with
  | some s => { r with snapped_at := some ⟨stripUTCChars s.data⟩ }
  | none => r

/-! ### Derived notions used by the claims -/

/-- The merge pipeline on a directory listing: inventory (glob + sort),
then merge, under a fixed ranking map. -/
def pipelineMerge (listing : List InputFile) (m : SymbolMap) :
    List String × List MergedRow × List String :=
  build_merged_rows (list_input_files listing) m

/-- A merged row originating from a file whose derived symbol is absent
from the ranking map. -/
def rowUnmatched (m : SymbolMap) (r : MergedRow) : Prop :=
  lookupSym m (parse_symbol_from_filename r.source_file) = none

instance (m : SymbolMap) (r : MergedRow) : Decidable (rowUnmatched m r) :=
  inferInstanceAs (Decidable (_ = none))

/-- "Unmatched rows appear after all matched rows": in the sorted output, a
row from an unmatched file is never followed by a row from a matched
file. -/
def unmatchedRowsLast (files : List InputFile) (m : SymbolMap) : Prop :=
  ((build_merged_rows files m).2.1).Pairwise
    fun a b => rowUnmatched m a → rowUnmatched m b

instance (files : List InputFile) (m : SymbolMap) :
    Decidable (unmatchedRowsLast files m) := by
  unfold unmatchedRowsLast
  infer_instance

/-- `base_headers` as finally fixed by `build_merged_rows`: the
`fieldnames` of the first file whose header list is nonempty. -/
def baseHeadersOf : List InputFile → List String
  | [] => []
  | f :: fs => if f.fieldnames = [] then baseHeadersOf fs else f.fieldnames

/-- Strict case-insensitive filename order (used to state uniqueness of the
sorted file list). -/
def fileLT (a b : InputFile) : Prop := pyStrLt (pyLower a.name) (pyLower b.name)

/-- The invariant of ranking-map keys: nonempty, already lowercased and
stripped of surrounding whitespace, and in agreement with the entry's own
`coin_symbol` field. -/
def goodKey (s : String) (c : RankedCoin) : Prop :=
  s ≠ "" ∧ pyLower s = s ∧ pyStrip s = s ∧ c.coin_symbol = s

/-- Whether an API record is one that `fetch_ranked_symbols` would accept
for symbol `s` (its processed symbol is `s`, nonempty, and it has a usable
rank). -/
def apiAccept (s : String) (r : ApiRecord) : Bool :=
  decide (pyStrip (pyLower r.symbol) = s) && !decide (s = "")
    && r.market_cap_rank.isSome

/-- The entry an accepted API record produces for symbol `s`. -/
def apiEntry (s : String) (r : ApiRecord) : RankedCoin :=
  ⟨r.id, r.name, s, r.market_cap_rank.getD 0⟩

/-- The first record of an API record stream that would be accepted for
symbol `s`, and the entry it produces. -/
def firstApi (s : String) (rs : List ApiRecord) : Option RankedCoin :=
  (rs.find? (apiAccept s)).map (apiEntry s)

/-- Whether a scraped row is one that `fetch_ranked_symbols_from_web` would
accept for symbol `s`. -/
def webAccept (s : String) (row : ScrapedRow) : Bool :=
  row.rank_cell.isSome && row.alt_text.isSome
    && decide (pyStrip (pyLower (row.alt_text.getD "")) = s)
    && !decide (s = "")

/-- The entry an accepted scraped row produces for symbol `s`. -/
def webEntry (s : String) (row : ScrapedRow) : RankedCoin :=
  ⟨"", row.display_name, s, row.rank_cell.getD 0⟩

/-- The first scraped row of a page that would be accepted for symbol `s`,
and the entry it produces. -/
def firstWeb (s : String) (rows : List ScrapedRow) : Option RankedCoin :=
  (rows.find? (webAccept s)).map (webEntry s)

/-! ### Groundwork: characters and Python string operations -/

theorem char_eq_of_toNat_eq {a b : Char} (h : a.toNat = b.toNat) : a = b :=
  Char.eq_of_val_eq (UInt32.ext h)

theorem charOfNat_toNat {n : Nat} (h : n < 55296) : (Char.ofNat n).toNat = n := by
  unfold Char.ofNat
  rw [dif_pos (Or.inl h)]
  rfl

theorem pyCharLower_toNat (c : Char) :
    (pyCharLower c).toNat =
      if 65 ≤ c.toNat ∧ c.toNat ≤ 90 then c.toNat + 32 else c.toNat := by
  by_cases h : 65 ≤ c.toNat ∧ c.toNat ≤ 90
  · simp only [pyCharLower, if_pos h]
    exact charOfNat_toNat (by omega)
  · simp only [pyCharLower, if_neg h]

theorem pyCharLower_idem (c : Char) :
    pyCharLower (pyCharLower c) = pyCharLower c := by
  have h1 := pyCharLower_toNat c
  have h2 := pyCharLower_toNat (pyCharLower c)
  apply char_eq_of_toNat_eq
  rw [h2]
  split at h1 <;> split <;> omega

theorem pyIsSpace_iff (c : Char) :
    pyIsSpace c = true ↔
      c.toNat = 32 ∨ c.toNat = 9 ∨ c.toNat = 10 ∨ c.toNat = 13 ∨
        c.toNat = 11 ∨ c.toNat = 12 := by
  simp [pyIsSpace, Bool.or_eq_true, decide_eq_true_eq, or_assoc]

theorem pyCharLower_space (c : Char) :
    pyIsSpace (pyCharLower c) = pyIsSpace c := by
  have h := pyCharLower_toNat c
  rw [Bool.eq_iff_iff, pyIsSpace_iff, pyIsSpace_iff]
  split at h <;> omega

theorem dropWhile_dropWhile (p : α → Bool) (l : List α) :
    (l.dropWhile p).dropWhile p = l.dropWhile p := by
  induction l with
  | nil => rfl
  | cons a as ih =>
    by_cases h : p a
    · simp [List.dropWhile_cons, h, ih]
    · simp [List.dropWhile_cons, h]

theorem dropWhile_head_not (p : α → Bool) (l : List α) {a : α}
    (h : (l.dropWhile p).head? = some a) : p a = false := by
  induction l with
  | nil => simp [List.dropWhile] at h
  | cons b bs ih =>
    by_cases hb : p b
    · rw [List.dropWhile_cons, if_pos hb] at h
      exact ih h
    · rw [List.dropWhile_cons, if_neg hb] at h
      simp only [List.head?_cons, Option.some.injEq] at h
      subst h
      exact Bool.not_eq_true _ ▸ (by simpa using hb)

theorem stripList_leading (l : List Char) :
    (pyStripList l) <+: (l.dropWhile pyIsSpace) := by
  unfold pyStripList
  obtain ⟨t, ht⟩ := List.dropWhile_suffix (l := (l.dropWhile pyIsSpace).reverse)
    (p := pyIsSpace)
  exact ⟨t.reverse, by
    rw [← List.reverse_append, ht, List.reverse_reverse]⟩

theorem stripList_dropWhile (l : List Char) :
    (pyStripList l).dropWhile pyIsSpace = pyStripList l := by
  obtain ⟨t, ht⟩ := stripList_leading l
  cases hB : pyStripList l with
  | nil => rfl
  | cons b bs =>
    rw [List.dropWhile_cons]
    rw [hB] at ht
    have hhead : ((l.dropWhile pyIsSpace)).head? = some b := by
      rw [← ht]; rfl
    rw [if_neg]
    simp [dropWhile_head_not pyIsSpace l hhead]

theorem stripList_reverse_dropWhile (l : List Char) :
    (pyStripList l).reverse.dropWhile pyIsSpace = (pyStripList l).reverse := by
  unfold pyStripList
  rw [List.reverse_reverse]
  exact dropWhile_dropWhile _ _

theorem stripList_idem (l : List Char) :
    pyStripList (pyStripList l) = pyStripList l := by
  show (((pyStripList l).dropWhile pyIsSpace).reverse.dropWhile pyIsSpace).reverse = _
  rw [stripList_dropWhile, stripList_reverse_dropWhile, List.reverse_reverse]

theorem stripList_map_lower (l : List Char) :
    pyStripList (l.map pyCharLower) = (pyStripList l).map pyCharLower := by
  have hf : (pyIsSpace ∘ pyCharLower) = pyIsSpace := funext pyCharLower_space
  unfold pyStripList
  rw [List.dropWhile_map, hf, ← List.map_reverse, List.dropWhile_map, hf,
    ← List.map_reverse]

theorem pyStrip_idem (s : String) : pyStrip (pyStrip s) = pyStrip s :=
  String.ext (stripList_idem s.data)

theorem map_pyCharLower_idem (l : List Char) :
    (l.map pyCharLower).map pyCharLower = l.map pyCharLower := by
  rw [List.map_map]
  exact List.map_congr_left fun a _ => pyCharLower_idem a

theorem pyLower_pyStrip_pyLower (s : String) :
    pyLower (pyStrip (pyLower s)) = pyStrip (pyLower s) := by
  apply String.ext
  show (pyStripList (s.data.map pyCharLower)).map pyCharLower = _
  rw [← stripList_map_lower, map_pyCharLower_idem]
  rfl

/-! ### Groundwork: the Python string order -/

theorem charListLt_irrefl (l : List Char) : charListLt l l = false := by
  induction l with
  | nil => rfl
  | cons a as ih => simp [charListLt, ih]

theorem charListLt_asymm : ∀ {a b : List Char},
    charListLt a b = true → charListLt b a = false
  | [], [], h => by simp [charListLt] at h
  | [], _ :: _, _ => rfl
  | _ :: _, [], h => by simp [charListLt] at h
  | x :: xs, y :: ys, h => by
    simp only [charListLt, Bool.or_eq_true, Bool.and_eq_true, decide_eq_true_eq] at h
    simp only [charListLt, Bool.or_eq_false_iff, Bool.and_eq_false_iff]
    rcases h with h | ⟨he, hrec⟩
    · exact ⟨by simp; omega, Or.inl (by simp; omega)⟩
    · exact ⟨by simp; omega, Or.inr (charListLt_asymm hrec)⟩

theorem charListLt_trans : ∀ {a b c : List Char},
    charListLt a b = true → charListLt b c = true → charListLt a c = true
  | [], [], _, h, _ => by simp [charListLt] at h
  | [], _ :: _, [], _, h => by simp [charListLt] at h
  | [], _ :: _, _ :: _, _, _ => rfl
  | _ :: _, [], _, h, _ => by simp [charListLt] at h
  | _ :: _, _ :: _, [], _, h => by simp [charListLt] at h
  | x :: xs, y :: ys, z :: zs, h1, h2 => by
    simp only [charListLt, Bool.or_eq_true, Bool.and_eq_true, decide_eq_true_eq] at h1 h2 ⊢
    rcases h1 with h1 | ⟨he1, hr1⟩
    · rcases h2 with h2 | ⟨he2, _⟩
      · exact Or.inl (by omega)
      · exact Or.inl (by omega)
    · rcases h2 with h2 | ⟨he2, hr2⟩
      · exact Or.inl (by omega)
      · exact Or.inr ⟨by omega, charListLt_trans hr1 hr2⟩

theorem charListLt_conn : ∀ {a b : List Char},
    charListLt a b = false → charListLt b a = false → a = b
  | [], [], _, _ => rfl
  | [], _ :: _, h, _ => by simp [charListLt] at h
  | _ :: _, [], _, h => by simp [charListLt] at h
  | x :: xs, y :: ys, h1, h2 => by
    simp only [charListLt, Bool.or_eq_false_iff, Bool.and_eq_false_iff,
      decide_eq_false_iff_not] at h1 h2
    obtain ⟨hlt1, hrest1⟩ := h1
    obtain ⟨hlt2, hrest2⟩ := h2
    have hx : x.toNat = y.toNat := by omega
    have hxy : x = y := char_eq_of_toNat_eq hx
    rcases hrest1 with he1 | hr1
    · exact absurd hx he1
    · rcases hrest2 with he2 | hr2
      · exact absurd hx.symm he2
      · rw [hxy, charListLt_conn hr1 hr2]

theorem pyStrLe_total (a b : String) : pyStrLe a b ∨ pyStrLe b a := by
  unfold pyStrLe
  by_cases h : charListLt a.data b.data = true
  · exact Or.inl (charListLt_asymm h)
  · exact Or.inr (Bool.not_eq_true _ ▸ h)

theorem pyStrLe_conn {a b : String} (h1 : pyStrLe a b) (h2 : pyStrLe b a) :
    a = b :=
  String.ext (charListLt_conn h2 h1)

theorem pyStrLe_trans {a b c : String} (h1 : pyStrLe a b) (h2 : pyStrLe b c) :
    pyStrLe a c := by
  unfold pyStrLe at h1 h2 ⊢
  by_contra hca
  have hca' : charListLt c.data a.data = true := by
    cases h : charListLt c.data a.data
    · exact absurd h hca
    · rfl
  by_cases hab : charListLt a.data b.data = true
  · exact absurd (charListLt_trans hca' hab) (by simp [h2])
  · have : a.data = b.data := charListLt_conn (Bool.not_eq_true _ ▸ hab) h1
    rw [this] at hca'
    exact absurd hca' (by simp [h2])

theorem pyStrLt_of_le_of_ne {a b : String} (h1 : pyStrLe a b) (h2 : a ≠ b) :
    pyStrLt a b := by
  unfold pyStrLt
  cases h : charListLt a.data b.data
  · exact absurd (String.ext (charListLt_conn h h1)) h2
  · rfl

theorem pyStrLt_asymm {a b : String} (h : pyStrLt a b) : ¬ pyStrLt b a := by
  unfold pyStrLt at h ⊢
  simp [charListLt_asymm h]

/-! ### Groundwork: the ranking map -/

theorem lookupSym_append (m m' : SymbolMap) (s : String) :
    lookupSym (m ++ m') s = (lookupSym m s).or (lookupSym m' s) :=
  List.lookup_append

theorem lookupSym_single (k : String) (c : RankedCoin) (s : String) :
    lookupSym [(k, c)] s = if s = k then some c else none := by
  by_cases h : s = k
  · subst h
    simp [lookupSym, List.lookup]
  · simp [lookupSym, List.lookup, show (s == k) = false by simpa using h, h]

theorem lookupSym_eq_none_iff (m : SymbolMap) (s : String) :
    lookupSym m s = none ↔ s ∉ m.map Prod.fst := by
  induction m with
  | nil => simp [lookupSym, List.lookup]
  | cons p ps ih =>
    obtain ⟨k, c⟩ := p
    by_cases h : s = k
    · subst h
      simp [lookupSym, List.lookup]
    · simp only [lookupSym, List.lookup,
        show (s == k) = false by simpa using h] at ih ⊢
      simpa [h] using ih

theorem lookupSym_mem {m : SymbolMap} {s : String} {c : RankedCoin}
    (h : lookupSym m s = some c) : (s, c) ∈ m := by
  induction m with
  | nil => simp [lookupSym, List.lookup] at h
  | cons p ps ih =>
    obtain ⟨k, v⟩ := p
    by_cases hk : s = k
    · subst hk
      simp only [lookupSym, List.lookup, beq_self_eq_true,
        Option.some.injEq] at h
      subst h
      exact List.mem_cons_self _ _
    · simp only [lookupSym, List.lookup,
        show (s == k) = false by simpa using hk] at h
      exact List.mem_cons_of_mem _ (ih h)

theorem apiInsert_preserve {m : SymbolMap} {s : String} {v : RankedCoin}
    (r : ApiRecord) (h : lookupSym m s = some v) :
    lookupSym (apiInsert m r) s = some v := by
  simp only [apiInsert]
  split
  · exact h
  · split
    · exact h
    · rw [lookupSym_append, h]
      rfl

theorem webRowStep_preserve {m : SymbolMap} {k : Nat} {s : String}
    {v : RankedCoin} (row : ScrapedRow) (h : lookupSym m s = some v) :
    lookupSym ((webRowStep (m, k) row)).1 s = some v := by
  unfold webRowStep
  split
  · dsimp only
    split
    · exact h
    · rw [lookupSym_append, h]
      rfl
  · exact h

theorem apiInsert_nodup {m : SymbolMap} (r : ApiRecord)
    (h : keysNodup m) : keysNodup (apiInsert m r) := by
  simp only [apiInsert]
  split
  · exact h
  next hguard =>
    split
    · exact h
    · unfold keysNodup at h ⊢
      rw [List.map_append, List.nodup_append]
      push_neg at hguard
      refine ⟨h, by simp, ?_⟩
      intro a ha hb
      simp only [List.map_cons, List.map_nil, List.mem_singleton] at hb
      subst hb
      have hnone : lookupSym m (pyStrip (pyLower r.symbol)) = none := by
        cases hl : lookupSym m (pyStrip (pyLower r.symbol))
        · rfl
        · exact absurd (show (lookupSym m (pyStrip (pyLower r.symbol))).isSome
              = true by rw [hl]; rfl) hguard.2
      exact (lookupSym_eq_none_iff _ _).mp hnone ha

theorem webRowStep_nodup {m : SymbolMap} {k : Nat} (row : ScrapedRow)
    (h : keysNodup m) : keysNodup ((webRowStep (m, k) row)).1 := by
  unfold webRowStep
  split
  · rename_i rank alt heq1 heq2
    dsimp only
    split
    · exact h
    next hguard =>
      unfold keysNodup at h ⊢
      rw [List.map_append, List.nodup_append]
      push_neg at hguard
      refine ⟨h, by simp, ?_⟩
      intro a ha hb
      simp only [List.map_cons, List.map_nil, List.mem_singleton] at hb
      subst hb
      have hnone : lookupSym m (pyStrip (pyLower alt)) = none := by
        cases hl : lookupSym m (pyStrip (pyLower alt))
        · rfl
        · exact absurd (show (lookupSym m (pyStrip (pyLower alt))).isSome
              = true by rw [hl]; rfl) hguard.2
      exact (lookupSym_eq_none_iff _ _).mp hnone ha
  · exact h

theorem apiInsert_goodKey {m : SymbolMap} (r : ApiRecord)
    (h : ∀ p ∈ m, goodKey p.1 p.2) :
    ∀ p ∈ apiInsert m r, goodKey p.1 p.2 := by
  simp only [apiInsert]
  split
  · exact h
  next hguard =>
    split
    · exact h
    · intro p hp
      rcases List.mem_append.mp hp with hp | hp
      · exact h p hp
      · simp only [List.mem_singleton] at hp
        subst hp
        push_neg at hguard
        exact ⟨hguard.1, pyLower_pyStrip_pyLower r.symbol,
          pyStrip_idem (pyLower r.symbol), rfl⟩

theorem webRowStep_goodKey {m : SymbolMap} {k : Nat} (row : ScrapedRow)
    (h : ∀ p ∈ m, goodKey p.1 p.2) :
    ∀ p ∈ ((webRowStep (m, k) row)).1, goodKey p.1 p.2 := by
  unfold webRowStep
  split
  · rename_i rank alt heq1 heq2
    dsimp only
    split
    · exact h
    next hguard =>
      intro p hp
      rcases List.mem_append.mp hp with hp | hp
      · exact h p hp
      · simp only [List.mem_singleton] at hp
        subst hp
        push_neg at hguard
        exact ⟨hguard.1, pyLower_pyStrip_pyLower alt,
          pyStrip_idem (pyLower alt), rfl⟩
  · exact h

/-! ### Groundwork: first-seen-wins characterization of the two fetchers -/

theorem apiInsert_lookup (m : SymbolMap) (r : ApiRecord) (s : String) :
    lookupSym (apiInsert m r) s =
      (lookupSym m s).or
        (if apiAccept s r then some (apiEntry s r) else none) := by
  by_cases hacc : apiAccept s r = true
  · rw [if_pos hacc]
    simp only [apiAccept, Bool.and_eq_true, decide_eq_true_eq,
      Bool.not_eq_true', decide_eq_false_iff_not] at hacc
    obtain ⟨⟨hkey, hs⟩, hrank⟩ := hacc
    obtain ⟨rank, hrk⟩ := Option.isSome_iff_exists.mp hrank
    cases hl : lookupSym m s with
    | some v =>
      have hins : apiInsert m r = m := by
        simp only [apiInsert]
        rw [if_pos (Or.inr (by rw [hkey, hl]; rfl))]
      rw [hins, hl]
      rfl
    | none =>
      have hins : apiInsert m r = m ++ [(s, apiEntry s r)] := by
        simp only [apiInsert]
        rw [if_neg (by
          push_neg
          constructor
          · rw [hkey]; exact hs
          · rw [hkey, hl]; simp), hrk]
        rw [hkey]
        simp [apiEntry, hrk]
      rw [hins, lookupSym_append, lookupSym_single, if_pos rfl, hl]
  · rw [if_neg hacc, Option.or_none]
    simp only [apiInsert]
    split
    · rfl
    next hguard =>
      split
      · rfl
      next rank hrk =>
        rw [lookupSym_append, lookupSym_single, if_neg, Option.or_none]
        intro hsk
        apply hacc
        push_neg at hguard
        simp only [apiAccept, Bool.and_eq_true, decide_eq_true_eq,
          Bool.not_eq_true', decide_eq_false_iff_not, hrk]
        refine ⟨⟨hsk.symm, fun hse => hguard.1 (by rw [← hsk]; exact hse)⟩, rfl⟩

theorem foldl_apiInsert_lookup : ∀ (rs : List ApiRecord) (m : SymbolMap)
    (s : String),
    lookupSym (rs.foldl apiInsert m) s = (lookupSym m s).or (firstApi s rs)
  | [], m, s => by simp [firstApi]
  | r :: rs, m, s => by
    rw [List.foldl_cons, foldl_apiInsert_lookup rs (apiInsert m r) s,
      apiInsert_lookup, Option.or_assoc]
    congr 1
    by_cases hacc : apiAccept s r = true
    · rw [if_pos hacc]
      unfold firstApi
      rw [List.find?_cons_of_pos _ hacc]
      rfl
    · rw [if_neg hacc]
      unfold firstApi
      rw [List.find?_cons_of_neg _ hacc]
      rfl

theorem webRowStep_lookup (m : SymbolMap) (k : Nat) (row : ScrapedRow)
    (s : String) :
    lookupSym ((webRowStep (m, k) row)).1 s =
      (lookupSym m s).or
        (if webAccept s row then some (webEntry s row) else none) := by
  by_cases hacc : webAccept s row = true
  · rw [if_pos hacc]
    have hacc' := hacc
    simp only [webAccept, Bool.and_eq_true, decide_eq_true_eq,
      Bool.not_eq_true', decide_eq_false_iff_not] at hacc'
    obtain ⟨⟨⟨hrank, halt⟩, hkey⟩, hs⟩ := hacc'
    obtain ⟨rank, hrk⟩ := Option.isSome_iff_exists.mp hrank
    obtain ⟨alt, hal⟩ := Option.isSome_iff_exists.mp halt
    rw [hal] at hkey
    simp only [Option.getD_some] at hkey
    cases hl : lookupSym m s with
    | some v =>
      have hins : ((webRowStep (m, k) row)).1 = m := by
        simp only [webRowStep, hrk, hal]
        rw [if_pos (Or.inr (by rw [hkey, hl]; rfl))]
      rw [hins, hl]
      rfl
    | none =>
      have hins : ((webRowStep (m, k) row)).1 = m ++ [(s, webEntry s row)] := by
        simp only [webRowStep, hrk, hal]
        rw [if_neg (by
          push_neg
          constructor
          · rw [hkey]; exact hs
          · rw [hkey, hl]; simp)]
        rw [hkey]
        simp [webEntry, hrk]
      rw [hins, lookupSym_append, lookupSym_single, if_pos rfl, hl]
  · rw [if_neg hacc, Option.or_none]
    unfold webRowStep
    split
    · rename_i rank alt heq1 heq2
      dsimp only
      split
      · rfl
      next hguard =>
        rw [lookupSym_append, lookupSym_single, if_neg, Option.or_none]
        intro hsk
        apply hacc
        push_neg at hguard
        simp only [webAccept, Bool.and_eq_true, decide_eq_true_eq,
          Bool.not_eq_true', decide_eq_false_iff_not, heq1, heq2]
        simp only [Option.isSome_some, Option.getD_some, true_and]
        refine ⟨hsk.symm, fun hse => hguard.1 (by rw [← hsk]; exact hse)⟩
    · rfl

theorem foldl_webRowStep_lookup : ∀ (rows : List ScrapedRow) (m : SymbolMap)
    (k : Nat) (s : String),
    lookupSym (rows.foldl webRowStep (m, k)).1 s =
      (lookupSym m s).or (firstWeb s rows)
  | [], m, k, s => by simp [firstWeb]
  | row :: rows, m, k, s => by
    rw [List.foldl_cons]
    rcases hw : webRowStep (m, k) row with ⟨m', k'⟩
    rw [foldl_webRowStep_lookup rows m' k' s]
    have hstep := webRowStep_lookup m k row s
    rw [hw] at hstep
    dsimp only at hstep
    rw [hstep, Option.or_assoc]
    congr 1
    by_cases hacc : webAccept s row = true
    · rw [if_pos hacc]
      unfold firstWeb
      rw [List.find?_cons_of_pos _ hacc]
      rfl
    · rw [if_neg hacc]
      unfold firstWeb
      rw [List.find?_cons_of_neg _ hacc]
      rfl

theorem foldl_apiInsert_nodup (rs : List ApiRecord) (m : SymbolMap)
    (h : keysNodup m) : keysNodup (rs.foldl apiInsert m) := by
  induction rs generalizing m with
  | nil => exact h
  | cons r rs ih => exact ih _ (apiInsert_nodup r h)

theorem foldl_apiInsert_goodKey (rs : List ApiRecord) (m : SymbolMap)
    (h : ∀ p ∈ m, goodKey p.1 p.2) :
    ∀ p ∈ rs.foldl apiInsert m, goodKey p.1 p.2 := by
  induction rs generalizing m with
  | nil => exact h
  | cons r rs ih => exact ih _ (apiInsert_goodKey r h)

theorem foldl_webRowStep_nodup (rows : List ScrapedRow) (m : SymbolMap)
    (k : Nat) (h : keysNodup m) :
    keysNodup (rows.foldl webRowStep (m, k)).1 := by
  induction rows generalizing m k with
  | nil => exact h
  | cons row rows ih =>
    rw [List.foldl_cons]
    rcases hw : webRowStep (m, k) row with ⟨m', k'⟩
    have := webRowStep_nodup (m := m) (k := k) row h
    rw [hw] at this
    exact ih m' k' this

theorem foldl_webRowStep_goodKey (rows : List ScrapedRow) (m : SymbolMap)
    (k : Nat) (h : ∀ p ∈ m, goodKey p.1 p.2) :
    ∀ p ∈ (rows.foldl webRowStep (m, k)).1, goodKey p.1 p.2 := by
  induction rows generalizing m k with
  | nil => exact h
  | cons row rows ih =>
    rw [List.foldl_cons]
    rcases hw : webRowStep (m, k) row with ⟨m', k'⟩
    have := webRowStep_goodKey (m := m) (k := k) row h
    rw [hw] at this
    exact ih m' k' this

theorem fetchApiGo_ok_preserve (pages : List ApiPage) :
    ∀ (m m' : SymbolMap), (fetchApiGo m pages).1 = .ok m' →
      ∀ (s : String) (v : RankedCoin), lookupSym m s = some v →
        lookupSym m' s = some v := by
  induction pages with
  | nil =>
    intro m m' hok s v hl
    simp only [fetchApiGo] at hok
    cases hok
    exact hl
  | cons page rest ih =>
    intro m m' hok s v hl
    simp only [fetchApiGo] at hok
    rcases hr : retryRequest page.fetch with ⟨res, ds⟩
    rw [hr] at hok
    cases res with
    | error e => simp at hok
    | ok data =>
      dsimp only at hok
      by_cases hd : data = []
      · rw [if_pos hd] at hok
        cases hok
        exact hl
      · rw [if_neg hd] at hok
        dsimp only at hok
        exact ih _ _ hok s v (by rw [foldl_apiInsert_lookup, hl]; rfl)

theorem fetchApiGo_ok_nodup (pages : List ApiPage) :
    ∀ (m m' : SymbolMap), (fetchApiGo m pages).1 = .ok m' →
      keysNodup m → keysNodup m' := by
  induction pages with
  | nil =>
    intro m m' hok h
    simp only [fetchApiGo] at hok
    cases hok
    exact h
  | cons page rest ih =>
    intro m m' hok h
    simp only [fetchApiGo] at hok
    rcases hr : retryRequest page.fetch with ⟨res, ds⟩
    rw [hr] at hok
    cases res with
    | error e => simp at hok
    | ok data =>
      dsimp only at hok
      by_cases hd : data = []
      · rw [if_pos hd] at hok
        cases hok
        exact h
      · rw [if_neg hd] at hok
        dsimp only at hok
        exact ih _ _ hok (foldl_apiInsert_nodup data m h)

theorem fetchApiGo_ok_goodKey (pages : List ApiPage) :
    ∀ (m m' : SymbolMap), (fetchApiGo m pages).1 = .ok m' →
      (∀ p ∈ m, goodKey p.1 p.2) → ∀ p ∈ m', goodKey p.1 p.2 := by
  induction pages with
  | nil =>
    intro m m' hok h
    simp only [fetchApiGo] at hok
    cases hok
    exact h
  | cons page rest ih =>
    intro m m' hok h
    simp only [fetchApiGo] at hok
    rcases hr : retryRequest page.fetch with ⟨res, ds⟩
    rw [hr] at hok
    cases res with
    | error e => simp at hok
    | ok data =>
      dsimp only at hok
      by_cases hd : data = []
      · rw [if_pos hd] at hok
        cases hok
        exact h
      · rw [if_neg hd] at hok
        dsimp only at hok
        exact ih _ _ hok (foldl_apiInsert_goodKey data m h)

theorem fetchWebGo_preserve (pages : List WebPage) :
    ∀ (m : SymbolMap) (s : String) (v : RankedCoin), lookupSym m s = some v →
      lookupSym (fetchWebGo m pages).1 s = some v := by
  induction pages with
  | nil => intro m s v hl; exact hl
  | cons page rest ih =>
    intro m s v hl
    cases page with
    | error e =>
      simp only [fetchWebGo]
      exact ih m s v hl
    | ok rows =>
      by_cases hrow : rows = []
      · subst hrow
        simp only [fetchWebGo, if_pos rfl]
        exact ih m s v hl
      · simp only [fetchWebGo, if_neg hrow]
        rcases hw : rows.foldl webRowStep (m, 0) with ⟨m', k'⟩
        have hm' : lookupSym m' s = some v := by
          have := foldl_webRowStep_lookup rows m 0 s
          rw [hw] at this
          dsimp only at this
          rw [this, hl]
          rfl
        dsimp only
        by_cases hk : k' = 0
        · rw [if_pos hk]
          exact hm'
        · rw [if_neg hk]
          exact ih m' s v hm'

theorem fetchWebGo_nodup (pages : List WebPage) :
    ∀ (m : SymbolMap), keysNodup m → keysNodup (fetchWebGo m pages).1 := by
  induction pages with
  | nil => intro m h; exact h
  | cons page rest ih =>
    intro m h
    cases page with
    | error e =>
      simp only [fetchWebGo]
      exact ih m h
    | ok rows =>
      by_cases hrow : rows = []
      · subst hrow
        simp only [fetchWebGo, if_pos rfl]
        exact ih m h
      · simp only [fetchWebGo, if_neg hrow]
        rcases hw : rows.foldl webRowStep (m, 0) with ⟨m', k'⟩
        have hm' : keysNodup m' := by
          have := foldl_webRowStep_nodup rows m 0 h
          rw [hw] at this
          exact this
        dsimp only
        by_cases hk : k' = 0
        · rw [if_pos hk]
          exact hm'
        · rw [if_neg hk]
          exact ih m' hm'

theorem fetchWebGo_goodKey (pages : List WebPage) :
    ∀ (m : SymbolMap), (∀ p ∈ m, goodKey p.1 p.2) →
      ∀ p ∈ (fetchWebGo m pages).1, goodKey p.1 p.2 := by
  induction pages with
  | nil => intro m h; exact h
  | cons page rest ih =>
    intro m h
    cases page with
    | error e =>
      simp only [fetchWebGo]
      exact ih m h
    | ok rows =>
      by_cases hrow : rows = []
      · subst hrow
        simp only [fetchWebGo, if_pos rfl]
        exact ih m h
      · simp only [fetchWebGo, if_neg hrow]
        rcases hw : rows.foldl webRowStep (m, 0) with ⟨m', k'⟩
        have hm' : ∀ p ∈ m', goodKey p.1 p.2 := by
          have := foldl_webRowStep_goodKey rows m 0 h
          rw [hw] at this
          exact this
        dsimp only
        by_cases hk : k' = 0
        · rw [if_pos hk]
          exact hm'
        · rw [if_neg hk]
          exact ih m' hm'

/-! ### Groundwork: the retry loop -/

theorem retryRequest_agree (f g : Nat → Except NetErr α)
    (h : ∀ i, i < 3 → f i = g i) : retryRequest f = retryRequest g := by
  simp only [retryRequest, h 0 (by omega), h 1 (by omega), h 2 (by omega)]

theorem retryRequest_all_fail (f : Nat → Except NetErr α)
    {e0 e1 e2 : NetErr} (h0 : f 0 = .error e0) (h1 : f 1 = .error e1)
    (h2 : f 2 = .error e2) :
    retryRequest f = (.error e2, [backoffDelay 0, backoffDelay 1]) := by
  simp only [retryRequest, h0, h1, h2]

theorem backoffDelay_lt (a b : Nat) (h : a < b) :
    backoffDelay a < backoffDelay b := by
  unfold backoffDelay
  have : (a : ℚ) < (b : ℚ) := by exact_mod_cast h
  nlinarith

/-! ### Groundwork: order facts for the two sorts -/

theorem pyStrLt_trans {a b c : String} (h1 : pyStrLt a b) (h2 : pyStrLt b c) :
    pyStrLt a c :=
  charListLt_trans h1 h2

theorem pyStr_trichotomy (a b : String) : pyStrLt a b ∨ a = b ∨ pyStrLt b a := by
  unfold pyStrLt
  cases hab : charListLt a.data b.data
  · cases hba : charListLt b.data a.data
    · exact Or.inr (Or.inl (String.ext (charListLt_conn hab hba)))
    · exact Or.inr (Or.inr rfl)
  · exact Or.inl rfl

instance : IsTotal InputFile fileLE :=
  ⟨fun _ _ => pyStrLe_total _ _⟩

instance : IsTrans InputFile fileLE :=
  ⟨fun _ _ _ h1 h2 => pyStrLe_trans h1 h2⟩

instance : IsAntisymm InputFile fileLT :=
  ⟨fun _ _ h h' => absurd h' (pyStrLt_asymm h)⟩

instance : IsTotal MergedRow rowLE := by
  constructor
  intro a b
  unfold rowLE
  rcases Nat.lt_trichotomy a.coin_rank b.coin_rank with h | h | h
  · exact Or.inl (Or.inl h)
  · rcases pyStr_trichotomy a.coin_symbol b.coin_symbol with hs | hs | hs
    · exact Or.inl (Or.inr ⟨h, Or.inl hs⟩)
    · rcases pyStrLe_total (snappedAt a) (snappedAt b) with ht | ht
      · exact Or.inl (Or.inr ⟨h, Or.inr ⟨hs, ht⟩⟩)
      · exact Or.inr (Or.inr ⟨h.symm, Or.inr ⟨hs.symm, ht⟩⟩)
    · exact Or.inr (Or.inr ⟨h.symm, Or.inl hs⟩)
  · exact Or.inr (Or.inl h)

instance : IsTrans MergedRow rowLE := by
  constructor
  intro a b c hab hbc
  unfold rowLE at hab hbc ⊢
  rcases hab with h1 | ⟨e1, h1⟩
  · rcases hbc with h2 | ⟨e2, _⟩
    · exact Or.inl (by omega)
    · exact Or.inl (by omega)
  · rcases hbc with h2 | ⟨e2, h2⟩
    · exact Or.inl (by omega)
    · refine Or.inr ⟨by omega, ?_⟩
      rcases h1 with hs1 | ⟨es1, ht1⟩
      · rcases h2 with hs2 | ⟨es2, _⟩
        · exact Or.inl (pyStrLt_trans hs1 hs2)
        · exact Or.inl (es2 ▸ hs1)
      · rcases h2 with hs2 | ⟨es2, ht2⟩
        · exact Or.inl (es1 ▸ hs2)
        · exact Or.inr ⟨es1.trans es2, pyStrLe_trans ht1 ht2⟩

theorem sorted_fileLT_of {s : List InputFile}
    (hs : List.Sorted fileLE s)
    (hnd : (s.map fun f => pyLower f.name).Nodup) :
    List.Sorted fileLT s := by
  have hpw : s.Pairwise fun a b => pyLower a.name ≠ pyLower b.name :=
    List.pairwise_map.mp hnd
  exact (hs.and hpw).imp fun {_ _} h => pyStrLt_of_le_of_ne h.1 h.2

theorem sortFiles_eq_of_perm {l₁ l₂ : List InputFile} (hp : l₁.Perm l₂)
    (hnd : (l₁.map fun f => pyLower f.name).Nodup) :
    l₁.insertionSort fileLE = l₂.insertionSort fileLE := by
  have e₁ := List.perm_insertionSort fileLE l₁
  have e₂ := List.perm_insertionSort fileLE l₂
  have hnd₁ : ((l₁.insertionSort fileLE).map fun f => pyLower f.name).Nodup :=
    ((e₁.map _).symm).nodup hnd
  have hnd₂ : ((l₂.insertionSort fileLE).map fun f => pyLower f.name).Nodup :=
    ((e₂.map _).symm).nodup ((hp.map _).nodup hnd)
  exact List.eq_of_perm_of_sorted (e₁.trans (hp.trans e₂.symm))
    (sorted_fileLT_of (List.sorted_insertionSort _ _) hnd₁)
    (sorted_fileLT_of (List.sorted_insertionSort _ _) hnd₂)

/-! ### Groundwork: the merge loop -/

theorem buildGo_base (m : SymbolMap) (files : List InputFile) :
    ∀ (base : List String),
      (buildGo m files base).2.2 = if base = [] then baseHeadersOf files else base := by
  induction files with
  | nil =>
    intro base
    simp only [buildGo, baseHeadersOf]
    split
    next h => exact h
    next h => rfl
  | cons f fs ih =>
    intro base
    simp only [buildGo]
    rw [ih]
    by_cases hb : base = []
    · subst hb
      simp only [if_pos rfl, baseHeadersOf]
      by_cases hf : f.fieldnames = []
      · simp [hf]
      · simp [hf]
    · simp only [if_neg hb]

theorem buildGo_unmatched (m : SymbolMap) (files : List InputFile) :
    ∀ (base : List String),
      (buildGo m files base).2.1 =
        (files.filter fun f =>
          (lookupSym m (parse_symbol_from_filename f.name)).isNone).map
          (fun f => f.name) := by
  induction files with
  | nil => intro base; rfl
  | cons f fs ih =>
    intro base
    simp only [buildGo]
    rw [ih]
    cases hm : (lookupSym m (parse_symbol_from_filename f.name)).isNone
    · simp [List.filter_cons, hm]
    · simp [List.filter_cons, hm]

theorem buildGo_length (m : SymbolMap) (files : List InputFile) :
    ∀ (base : List String),
      (buildGo m files base).1.length = (files.map fun f => f.rows.length).sum := by
  induction files with
  | nil => intro base; rfl
  | cons f fs ih =>
    intro base
    simp only [buildGo, List.length_append, List.length_map, ih,
      List.map_cons, List.sum_cons]

theorem buildGo_rows_of_base (m : SymbolMap) (files : List InputFile) :
    ∀ (base : List String), base ≠ [] →
      (buildGo m files base).1 =
        files.flatMap fun f =>
          f.rows.map (mkMergedRow (coinFor m (parse_symbol_from_filename f.name))
            f.name base) := by
  induction files with
  | nil => intro base _; rfl
  | cons f fs ih =>
    intro base hb
    simp only [buildGo, List.flatMap_cons, if_neg hb]
    rw [ih base hb]

theorem buildGo_rows (m : SymbolMap) (files : List InputFile)
    (hwf : ∀ f ∈ files, f.fieldnames = [] → f.rows = []) :
    (buildGo m files []).1 =
      files.flatMap fun f =>
        f.rows.map (mkMergedRow (coinFor m (parse_symbol_from_filename f.name))
          f.name (baseHeadersOf files)) := by
  induction files with
  | nil => rfl
  | cons f fs ih =>
    simp only [buildGo, List.flatMap_cons, if_true]
    by_cases hf : f.fieldnames = []
    · rw [hwf f (List.mem_cons_self f fs) hf]
      simp only [List.map_nil, List.nil_append, hf]
      rw [show baseHeadersOf (f :: fs) = baseHeadersOf fs by
        simp [baseHeadersOf, hf]]
      exact ih fun g hg => hwf g (List.mem_cons_of_mem f hg)
    · rw [show baseHeadersOf (f :: fs) = f.fieldnames by
        simp [baseHeadersOf, hf]]
      rw [buildGo_rows_of_base m fs f.fieldnames hf]

theorem buildGo_mem (m : SymbolMap) (files : List InputFile) :
    ∀ (base : List String) (r : MergedRow), r ∈ (buildGo m files base).1 →
      ∃ f ∈ files, ∃ row ∈ f.rows, ∃ b,
        r = mkMergedRow (coinFor m (parse_symbol_from_filename f.name))
          f.name b row := by
  induction files with
  | nil =>
    intro base r hr
    simp [buildGo] at hr
  | cons f fs ih =>
    intro base r hr
    simp only [buildGo] at hr
    rcases List.mem_append.mp hr with hr | hr
    · rcases List.mem_map.mp hr with ⟨row, hrow, heq⟩
      exact ⟨f, List.mem_cons_self f fs, row, hrow, _, heq.symm⟩
    · obtain ⟨g, hg, row, hrow, b, heq⟩ := ih _ r hr
      exact ⟨g, List.mem_cons_of_mem f hg, row, hrow, b, heq⟩

theorem buildGo_mem_of (m : SymbolMap) (files : List InputFile) :
    ∀ (base : List String) (f : InputFile), f ∈ files → ∀ row ∈ f.rows,
      ∃ b, mkMergedRow (coinFor m (parse_symbol_from_filename f.name))
        f.name b row ∈ (buildGo m files base).1 := by
  induction files with
  | nil =>
    intro base f hf
    simp at hf
  | cons g gs ih =>
    intro base f hf row hrow
    rcases List.mem_cons.mp hf with hf | hf
    · subst hf
      refine ⟨if base = [] then f.fieldnames else base, ?_⟩
      simp only [buildGo]
      exact List.mem_append.mpr (Or.inl (List.mem_map_of_mem _ hrow))
    · obtain ⟨b, hb⟩ := ih (if base = [] then g.fieldnames else base) f hf row hrow
      refine ⟨b, ?_⟩
      simp only [buildGo]
      exact List.mem_append.mpr (Or.inr hb)

/-! ### Groundwork: generic row lookup and the snapshot cleaner -/

theorem rowGet_not_mem (row : List (String × String)) (k : String)
    (h : k ∉ row.map Prod.fst) : rowGet row k = "" := by
  induction row with
  | nil => rfl
  | cons p ps ih =>
    obtain ⟨k', v⟩ := p
    simp only [List.map_cons, List.mem_cons, not_or] at h
    simp only [rowGet, List.lookup, show (k == k') = false by simpa using h.1]
    exact ih h.2

theorem transformSnapshotRow_keeps (r : SnapshotRow) :
    (transformSnapshotRow r).price = r.price ∧
    (transformSnapshotRow r).market_cap = r.market_cap ∧
    (transformSnapshotRow r).total_volume = r.total_volume ∧
    (transformSnapshotRow r).others = r.others := by
  unfold transformSnapshotRow
  cases hsn : r.snapped_at <;> simp

theorem convertDates_spec : ∀ (rows : List SnapshotRow)
    (dated : List (SnapshotRow × Option (Nat × Nat × Nat))),
    convertDates rows = some dated →
    dated.map (fun t => t.1) = rows.map transformSnapshotRow ∧
    ∀ t ∈ dated, (∃ r ∈ rows, t.1 = transformSnapshotRow r) ∧
      ∀ d, t.2 = some d → ∃ s, t.1.snapped_at = some s ∧ parseDate s = some d
  | [], dated, h => by
    simp only [convertDates, Option.some.injEq] at h
    subst h
    simp
  | r :: rs, dated, h => by
    simp only [convertDates] at h
    cases hsn : r.snapped_at with
    | none =>
      rw [hsn] at h
      dsimp only at h
      rcases Option.map_eq_some'.mp h with ⟨rest, hrest, hd⟩
      subst hd
      obtain ⟨hmap, hall⟩ := convertDates_spec rs rest hrest
      constructor
      · simp only [List.map_cons, hmap]
        congr 1
        unfold transformSnapshotRow
        rw [hsn]
      · intro t ht
        rcases List.mem_cons.mp ht with ht | ht
        · subst ht
          refine ⟨⟨r, List.mem_cons_self _ _, ?_⟩, ?_⟩
          · unfold transformSnapshotRow
            rw [hsn]
          · intro d hd
            simp at hd
        · obtain ⟨⟨g, hg, hgeq⟩, hdate⟩ := hall t ht
          exact ⟨⟨g, List.mem_cons_of_mem _ hg, hgeq⟩, hdate⟩
    | some s =>
      rw [hsn] at h
      dsimp only at h
      cases hp : parseDate ⟨stripUTCChars s.data⟩ with
      | none =>
        rw [hp] at h
        simp at h
      | some d0 =>
        rw [hp] at h
        dsimp only at h
        rcases Option.map_eq_some'.mp h with ⟨rest, hrest, hd⟩
        subst hd
        obtain ⟨hmap, hall⟩ := convertDates_spec rs rest hrest
        constructor
        · simp only [List.map_cons, hmap]
          congr 1
          unfold transformSnapshotRow
          rw [hsn]
        · intro t ht
          rcases List.mem_cons.mp ht with ht | ht
          · subst ht
            refine ⟨⟨r, List.mem_cons_self _ _, ?_⟩, ?_⟩
            · unfold transformSnapshotRow
              rw [hsn]
            · intro d hd
              simp only [Option.some.injEq] at hd
              subst hd
              exact ⟨_, rfl, hp⟩
          · obtain ⟨⟨g, hg, hgeq⟩, hdate⟩ := hall t ht
            exact ⟨⟨g, List.mem_cons_of_mem _ hg, hgeq⟩, hdate⟩

/-! ### The claims -/

/-- **C9**: for every input snapshot table (whose surviving timestamps the
script can parse, otherwise it aborts with no output), the cleaner's output
has no row with a missing `price`, `market_cap` or `total_volume`; every
output row's `snapped_at` (after removal of the `" UTC"` marker) parses to a
date at or after 2020-02-19; the output is no longer than the input; and the
surviving rows are the input rows in their original order with all columns
kept (only `snapped_at` rewritten to the stripped text). -/
theorem snapshot_cleaner_ok (table out : List SnapshotRow)
    (h : clean_coingecko_data table = some out) :
    (∀ r ∈ out, r.price.isSome ∧ r.market_cap.isSome ∧ r.total_volume.isSome)
  ∧ (∀ r ∈ out, ∃ s d, r.snapped_at = some s ∧ parseDate s = some d ∧
      dateLE cutoffDate d)
  ∧ out.length ≤ table.length
  ∧ out.Sublist (table.map transformSnapshotRow) := by
  unfold clean_coingecko_data at h
  cases hc : convertDates (table.filter dropnaKeep) with
  | none =>
    rw [hc] at h
    simp at h
  | some dated =>
    rw [hc] at h
    simp only [Option.some.injEq] at h
    subst h
    obtain ⟨hmap, hall⟩ := convertDates_spec _ _ hc
    refine ⟨?_, ?_, ?_, ?_⟩
    · intro r hr
      rcases List.mem_map.mp hr with ⟨t, ht, hteq⟩
      obtain ⟨⟨g, hg, hgeq⟩, _⟩ := hall t (List.mem_of_mem_filter ht)
      have hgk := List.of_mem_filter hg
      simp only [dropnaKeep, Bool.and_eq_true] at hgk
      have hk := transformSnapshotRow_keeps g
      subst hteq
      rw [hgeq, hk.1, hk.2.1, hk.2.2.1]
      exact ⟨hgk.1.1, hgk.1.2, hgk.2⟩
    · intro r hr
      rcases List.mem_map.mp hr with ⟨t, ht, hteq⟩
      have hkeep := List.of_mem_filter ht
      obtain ⟨_, hdate⟩ := hall t (List.mem_of_mem_filter ht)
      unfold keepSinceCutoff at hkeep
      cases ht2 : t.2 with
      | none => rw [ht2] at hkeep; simp at hkeep
      | some d =>
        rw [ht2] at hkeep
        simp only [decide_eq_true_eq] at hkeep
        obtain ⟨s, hs, hps⟩ := hdate d ht2
        subst hteq
        exact ⟨s, d, hs, hps, hkeep⟩
    · rw [List.length_map]
      have h1 := List.length_filter_le keepSinceCutoff dated
      have h2 : dated.length = (table.filter dropnaKeep).length := by
        have := congrArg List.length hmap
        simpa using this
      have h3 := List.length_filter_le dropnaKeep table
      omega
    · have h1 : (List.map (fun t => t.1)
          (List.filter keepSinceCutoff dated)).Sublist
          (List.map (fun t => t.1) dated) :=
        (List.filter_sublist dated).map _
      rw [hmap] at h1
      exact h1.trans ((List.filter_sublist table).map _)

/-- Witness for `snapshot_cleaner_ok` at a concrete two-row table (one row
with a missing price, one complete row inside the window). -/
theorem snapshot_cleaner_ok_witness :
    ([⟨some "1", some "2", some "3", some "2021-03-04 00:00:00", [("x", "y")]⟩] :
        List SnapshotRow).length ≤
      ([⟨none, some "2", some "3", some "2021-03-04 00:00:00 UTC", []⟩,
        ⟨some "1", some "2", some "3", some "2021-03-04 00:00:00 UTC", [("x", "y")]⟩] :
        List SnapshotRow).length
  ∧ ([⟨some "1", some "2", some "3", some "2021-03-04 00:00:00", [("x", "y")]⟩] :
      List SnapshotRow).Sublist
      (([⟨none, some "2", some "3", some "2021-03-04 00:00:00 UTC", []⟩,
         ⟨some "1", some "2", some "3", some "2021-03-04 00:00:00 UTC", [("x", "y")]⟩] :
        List SnapshotRow).map transformSnapshotRow) := by
  have h := snapshot_cleaner_ok
    [⟨none, some "2", some "3", some "2021-03-04 00:00:00 UTC", []⟩,
     ⟨some "1", some "2", some "3", some "2021-03-04 00:00:00 UTC", [("x", "y")]⟩]
    [⟨some "1", some "2", some "3", some "2021-03-04 00:00:00", [("x", "y")]⟩]
    (by decide)
  exact ⟨h.2.2.1, h.2.2.2⟩

/-- **C3**: both ranking fetchers build the map first-seen-wins: the entry
looked up for a symbol after folding a record stream into the map is the
already-present entry if any, else the first accepted record of the stream;
entries survive all later pages unchanged (no overwriting); and the final
maps bind each distinct lowercase symbol exactly once. -/
theorem ranking_first_seen_wins :
    (∀ (rs : List ApiRecord) (m : SymbolMap) (s : String),
        lookupSym (rs.foldl apiInsert m) s = (lookupSym m s).or (firstApi s rs))
  ∧ (∀ (rows : List ScrapedRow) (m : SymbolMap) (k : Nat) (s : String),
        lookupSym (rows.foldl webRowStep (m, k)).1 s =
          (lookupSym m s).or (firstWeb s rows))
  ∧ (∀ (pages : List ApiPage) (m m' : SymbolMap),
        (fetchApiGo m pages).1 = .ok m' →
        ∀ (s : String) (v : RankedCoin), lookupSym m s = some v →
          lookupSym m' s = some v)
  ∧ (∀ (pages : List WebPage) (m : SymbolMap) (s : String) (v : RankedCoin),
        lookupSym m s = some v → lookupSym (fetchWebGo m pages).1 s = some v)
  ∧ (∀ (pages : List ApiPage) (m' : SymbolMap),
        (fetch_ranked_symbols pages).1 = .ok m' → keysNodup m')
  ∧ (∀ (pages : List WebPage),
        keysNodup (fetch_ranked_symbols_from_web pages).1) := by
  refine ⟨foldl_apiInsert_lookup, foldl_webRowStep_lookup,
    fetchApiGo_ok_preserve, fetchWebGo_preserve, ?_, ?_⟩
  · intro pages m' hok
    exact fetchApiGo_ok_nodup pages [] m' hok (by simp [keysNodup])
  · intro pages
    exact fetchWebGo_nodup pages [] (by simp [keysNodup])

/-- Witness for `ranking_first_seen_wins`: a concrete API run and a concrete
scraped page with a duplicate symbol. -/
theorem ranking_first_seen_wins_witness :
    keysNodup [("btc", ⟨"bitcoin", "Bitcoin", "btc", 1⟩)]
  ∧ keysNodup (fetch_ranked_symbols_from_web
      [Except.ok [⟨some 1, some "BTC", "Bitcoin"⟩,
        ⟨some 2, some "btc", "Bogus"⟩]]).1 :=
  ⟨ranking_first_seen_wins.2.2.2.2.1
      [⟨fun _ => Except.ok [⟨"BTC", "bitcoin", "Bitcoin", some 1⟩]⟩] _ rfl,
    ranking_first_seen_wins.2.2.2.2.2 _⟩

/-- **C10**: every key of a ranking map produced by either adapter is a
nonempty string invariant under lowercasing and under stripping, and the
entry stored under it has `coin_symbol` equal to the key. -/
theorem ranking_keys_canonical :
    (∀ (pages : List ApiPage) (m' : SymbolMap),
        (fetch_ranked_symbols pages).1 = .ok m' →
        ∀ p ∈ m', p.1 ≠ "" ∧ pyLower p.1 = p.1 ∧ pyStrip p.1 = p.1 ∧
          p.2.coin_symbol = p.1)
  ∧ (∀ (pages : List WebPage), ∀ p ∈ (fetch_ranked_symbols_from_web pages).1,
        p.1 ≠ "" ∧ pyLower p.1 = p.1 ∧ pyStrip p.1 = p.1 ∧
          p.2.coin_symbol = p.1) := by
  constructor
  · intro pages m' hok p hp
    exact fetchApiGo_ok_goodKey pages [] m' hok (by simp) p hp
  · intro pages p hp
    exact fetchWebGo_goodKey pages [] (by simp) p hp

/-- Witness for `ranking_keys_canonical`: the key produced for the raw alt
text `" BtC "` is the canonical `"btc"`. -/
theorem ranking_keys_canonical_witness :
    ("btc" : String) ≠ "" ∧ pyLower "btc" = "btc" ∧ pyStrip "btc" = "btc" ∧
      (⟨"", "Bitcoin", "btc", 1⟩ : RankedCoin).coin_symbol = "btc" :=
  ranking_keys_canonical.2 [Except.ok [⟨some 1, some " BtC ", "Bitcoin"⟩]]
    ("btc", ⟨"", "Bitcoin", "btc", 1⟩) (by decide)

/-- **C6**: a page of the primary path is attempted at most 3 times (the
retry loop consults only attempt indices 0, 1, 2); a success stops retrying
immediately; each failed non-final attempt is followed by a backoff delay
`1.5 * (attempt + 1)` seconds, strictly increasing (linear); and when the
third attempt also fails the error propagates out of the primary path and
`main` runs the fallback scraper instead of aborting. -/
theorem primary_retry_then_fallback :
    (∀ (f g : Nat → Except NetErr (List ApiRecord)),
        (∀ i, i < 3 → f i = g i) → retryRequest f = retryRequest g)
  ∧ (∀ (f : Nat → Except NetErr (List ApiRecord)) (p : List ApiRecord),
        f 0 = .ok p → retryRequest f = (.ok p, []))
  ∧ (∀ (f : Nat → Except NetErr (List ApiRecord)) (e0 : NetErr)
        (p : List ApiRecord), f 0 = .error e0 → f 1 = .ok p →
        retryRequest f = (.ok p, [backoffDelay 0]))
  ∧ (∀ (f : Nat → Except NetErr (List ApiRecord)) (e0 e1 e2 : NetErr),
        f 0 = .error e0 → f 1 = .error e1 → f 2 = .error e2 →
        retryRequest f = (.error e2, [backoffDelay 0, backoffDelay 1]))
  ∧ (∀ a b : Nat, a < b → backoffDelay a < backoffDelay b)
  ∧ (∀ (listing : List InputFile) (api : List ApiPage) (web : List WebPage)
        (e : NetErr) (n : Nat),
        list_input_files listing ≠ [] →
        fetch_ranked_symbols api = (.error e, n) →
        (fetch_ranked_symbols_from_web web).1 ≠ [] →
        (mainRun listing api web).1 = .ok
          ⟨(build_merged_rows (list_input_files listing)
              (fetch_ranked_symbols_from_web web).1).1,
            (build_merged_rows (list_input_files listing)
              (fetch_ranked_symbols_from_web web).1).2.1,
            (build_merged_rows (list_input_files listing)
              (fetch_ranked_symbols_from_web web).1).2.2⟩) := by
  refine ⟨retryRequest_agree, ?_, ?_, ?_, backoffDelay_lt, ?_⟩
  · intro f p h0
    simp only [retryRequest, h0]
  · intro f e0 p h0 h1
    simp only [retryRequest, h0, h1]
  · intro f e0 e1 e2 h0 h1 h2
    exact retryRequest_all_fail f h0 h1 h2
  · intro listing api web e n hfl hapi hw
    simp only [mainRun, if_neg hfl, hapi, if_neg hw]

/-- Witness for `primary_retry_then_fallback`: a page whose fetch always
times out, and a run whose primary path fails while the scraper succeeds. -/
theorem primary_retry_then_fallback_witness :
    retryRequest (fun _ => (Except.error NetErr.timeoutError :
        Except NetErr (List ApiRecord)))
      = (.error .timeoutError, [backoffDelay 0, backoffDelay 1])
  ∧ backoffDelay 0 < backoffDelay 1
  ∧ (mainRun [⟨"btc-usd-max.csv", ["snapped_at"], []⟩]
        [⟨fun _ => .error .timeoutError⟩]
        [.ok [⟨some 1, some "btc", "Bitcoin"⟩]]).1
      = .ok
        ⟨(build_merged_rows
            (list_input_files [⟨"btc-usd-max.csv", ["snapped_at"], []⟩])
            (fetch_ranked_symbols_from_web
              [.ok [⟨some 1, some "btc", "Bitcoin"⟩]]).1).1,
          (build_merged_rows
            (list_input_files [⟨"btc-usd-max.csv", ["snapped_at"], []⟩])
            (fetch_ranked_symbols_from_web
              [.ok [⟨some 1, some "btc", "Bitcoin"⟩]]).1).2.1,
          (build_merged_rows
            (list_input_files [⟨"btc-usd-max.csv", ["snapped_at"], []⟩])
            (fetch_ranked_symbols_from_web
              [.ok [⟨some 1, some "btc", "Bitcoin"⟩]]).1).2.2⟩ :=
  ⟨primary_retry_then_fallback.2.2.2.1 _ .timeoutError .timeoutError
      .timeoutError rfl rfl rfl,
    primary_retry_then_fallback.2.2.2.2.1 0 1 (by omega),
    primary_retry_then_fallback.2.2.2.2.2 _ _ _ .timeoutError 3
      (by decide) rfl (by decide)⟩

/-- **C5 counterexample**: the primary path can *succeed* with an empty
mapping (the API returns an empty first page); the fallback is then never
consulted even though it would yield an entry, and the run still aborts with
`RankingUnavailable` — so "fails only when both paths yield an empty
mapping" is false as stated. -/
theorem ranking_unavailable_counterexample :
    (mainRun [⟨"btc-usd-max.csv", ["snapped_at"], []⟩]
        [⟨fun _ => Except.ok []⟩]
        [Except.ok [⟨some 1, some "btc", "Bitcoin"⟩]]).1
      = .error .rankingUnavailable
  ∧ (fetch_ranked_symbols_from_web
      [Except.ok [⟨some 1, some "btc", "Bitcoin"⟩]]).1 ≠ [] := by
  constructor
  · rfl
  · decide

/-- **C5** (amended): the run fails with `RankingUnavailable` exactly when
input files exist and the mapping selected by the primary-else-fallback
policy is empty: either the primary path *succeeds* with an empty mapping
(the fallback is then never consulted), or the primary path raises and the
fallback scrape yields an empty mapping. -/
theorem ranking_unavailable_iff (listing : List InputFile)
    (api : List ApiPage) (web : List WebPage) :
    (mainRun listing api web).1 = .error .rankingUnavailable ↔
      (list_input_files listing ≠ [] ∧
        ((fetch_ranked_symbols api).1 = .ok [] ∨
          ((∃ e, (fetch_ranked_symbols api).1 = .error e) ∧
            (fetch_ranked_symbols_from_web web).1 = []))) := by
  by_cases hfl : list_input_files listing = []
  · simp only [mainRun, if_pos hfl]
    simp [hfl]
  · rcases hapi : fetch_ranked_symbols api with ⟨res, n⟩
    cases res with
    | ok mm =>
      by_cases hmm : mm = []
      · subst hmm
        simp only [mainRun, if_neg hfl, hapi, if_pos rfl]
        simp [hfl, hapi]
      · simp only [mainRun, if_neg hfl, hapi, if_neg hmm]
        simp [hfl, hapi, hmm]
    | error e =>
      by_cases hw : (fetch_ranked_symbols_from_web web).1 = []
      · simp only [mainRun, if_neg hfl, hapi, if_pos hw]
        simp [hfl, hapi, hw]
      · simp only [mainRun, if_neg hfl, hapi, if_neg hw]
        simp [hfl, hapi, hw]

/-- **C7 counterexample**: a fallback page with *no extractable rows* does
not terminate pagination — the loop `continue`s and the next page is still
fetched (2 pages fetched here, and the entry of page 2 is captured), contrary
to the claim that such a page ends pagination. -/
theorem web_pagination_counterexample :
    fetch_ranked_symbols_from_web
        [Except.ok [], Except.ok [⟨some 1, some "btc", "Bitcoin"⟩]]
      = ([("btc", ⟨"", "Bitcoin", "btc", 1⟩)], 2) := by
  decide

/-- **C7** (amended): pagination of the fallback scraper terminates early
exactly on a page that has at least one extractable row but contributes zero
new entries; a failed fetch or a page with no extractable rows is skipped
and pagination continues with the next page. -/
theorem web_pagination_early_stop :
    (∀ (m : SymbolMap) (rows : List ScrapedRow) (rest : List WebPage),
        rows ≠ [] → (rows.foldl webRowStep (m, 0)).2 = 0 →
        fetchWebGo m (.ok rows :: rest) = ((rows.foldl webRowStep (m, 0)).1, 1))
  ∧ (∀ (m : SymbolMap) (e : NetErr) (rest : List WebPage),
        fetchWebGo m (.error e :: rest) =
          ((fetchWebGo m rest).1, (fetchWebGo m rest).2 + 1))
  ∧ (∀ (m : SymbolMap) (rest : List WebPage),
        fetchWebGo m (.ok [] :: rest) =
          ((fetchWebGo m rest).1, (fetchWebGo m rest).2 + 1)) := by
  refine ⟨?_, ?_, ?_⟩
  · intro m rows rest hrows hzero
    simp only [fetchWebGo, if_neg hrows, if_pos hzero]
  · intro m e rest
    simp only [fetchWebGo]
  · intro m rest
    simp [fetchWebGo]

/-- Witness for `web_pagination_early_stop`: a page whose only row carries
an already-captured symbol ends pagination; the second page is never
consumed. -/
theorem web_pagination_early_stop_witness :
    fetchWebGo [("btc", ⟨"", "Bitcoin", "btc", 1⟩)]
        [Except.ok [⟨some 2, some "btc", "Bitcoin"⟩],
          Except.ok [⟨some 3, some "eth", "Ethereum"⟩]]
      = ([("btc", ⟨"", "Bitcoin", "btc", 1⟩)], 1) :=
  (web_pagination_early_stop.1 [("btc", ⟨"", "Bitcoin", "btc", 1⟩)]
      [⟨some 2, some "btc", "Bitcoin"⟩]
      [Except.ok [⟨some 3, some "eth", "Ethereum"⟩]]
      (by decide) (by decide)).trans (by decide)

/-- **C8**: when no file in the raw directory matches `*-usd-max.csv`, the
run fails with `NoInputFiles` and issues zero network requests, whatever the
two network oracles would have answered. -/
theorem no_input_files_before_network (listing : List InputFile)
    (api : List ApiPage) (web : List WebPage)
    (h : listing.filter (fun f => matchesGlob f.name) = []) :
    mainRun listing api web = (.error .noInputFiles, 0) := by
  have hfl : list_input_files listing = [] := by
    unfold list_input_files
    rw [h]
    rfl
  simp only [mainRun, if_pos hfl]

/-- Witness for `no_input_files_before_network`: a directory with only a
non-matching file, in the presence of live oracles. -/
theorem no_input_files_before_network_witness :
    mainRun [⟨"readme.txt", ["a"], []⟩]
        [⟨fun _ => Except.ok [⟨"BTC", "bitcoin", "Bitcoin", some 1⟩]⟩]
        [Except.ok [⟨some 1, some "btc", "Bitcoin"⟩]]
      = (.error .noInputFiles, 0) :=
  no_input_files_before_network _ _ _ (by decide)

/-- **C2 counterexample**: the 999999 sentinel is *not* larger than every
possible real rank — with a matched coin whose real rank is itself 999999,
the unmatched file's row sorts *before* the matched row (tie on rank, then
symbol `"a" < "z"`), so "unmatched rows appear after all matched rows" is
false as stated. -/
theorem unmatched_last_counterexample :
    ¬ unmatchedRowsLast
        [⟨"a-usd-max.csv", ["snapped_at"], [[("snapped_at", "t")]]⟩,
         ⟨"z-usd-max.csv", ["snapped_at"], [[("snapped_at", "t")]]⟩]
        [("z", ⟨"idz", "Z", "z", 999999⟩)] := by
  decide

/-- **C2** (amended): for every file whose derived symbol is absent from the
ranking map, the merge records the filename as unmatched and still emits
every one of its rows, built from the synthetic placeholder
(`coin_id = ""`, `coin_name = ""`, `coin_rank = 999999`); and provided every
real rank in the map is below the 999999 sentinel, those rows appear after
all rows of matched files in the sorted output. -/
theorem unmatched_placeholder (files : List InputFile) (m : SymbolMap)
    (hrank : ∀ p ∈ m, p.2.coin_rank < 999999) :
    (∀ f ∈ files, lookupSym m (parse_symbol_from_filename f.name) = none →
        f.name ∈ (build_merged_rows files m).2.2
      ∧ ∀ row ∈ f.rows, ∃ b,
          mkMergedRow ⟨"", "", parse_symbol_from_filename f.name, 999999⟩
            f.name b row ∈ (build_merged_rows files m).2.1)
  ∧ unmatchedRowsLast files m := by
  constructor
  · intro f hf hnone
    constructor
    · show f.name ∈ (buildGo m files []).2.1
      rw [buildGo_unmatched]
      exact List.mem_map_of_mem _ (List.mem_filter.mpr ⟨hf, by simp [hnone]⟩)
    · intro row hrow
      obtain ⟨b, hb⟩ := buildGo_mem_of m files [] f hf row hrow
      refine ⟨b, ?_⟩
      have hperm := List.perm_insertionSort rowLE (buildGo m files []).1
      rw [show coinFor m (parse_symbol_from_filename f.name) =
        ⟨"", "", parse_symbol_from_filename f.name, 999999⟩ by
          simp [coinFor, hnone]] at hb
      exact (hperm.mem_iff).mpr hb
  · unfold unmatchedRowsLast
    have hsort : List.Sorted rowLE ((buildGo m files []).1.insertionSort rowLE) :=
      List.sorted_insertionSort _ _
    have hperm := List.perm_insertionSort rowLE (buildGo m files []).1
    have hfact : ∀ r ∈ (buildGo m files []).1.insertionSort rowLE,
        (rowUnmatched m r → r.coin_rank = 999999) ∧
        (¬ rowUnmatched m r → r.coin_rank < 999999) := by
      intro r hr
      obtain ⟨g, hg, row, hrow, b, heq⟩ :=
        buildGo_mem m files [] r (hperm.mem_iff.mp hr)
      subst heq
      unfold rowUnmatched mkMergedRow
      dsimp only
      constructor
      · intro hun
        rw [show coinFor m (parse_symbol_from_filename g.name) =
          ⟨"", "", parse_symbol_from_filename g.name, 999999⟩ by
            simp [coinFor, hun]]
      · intro hmt
        cases hl : lookupSym m (parse_symbol_from_filename g.name) with
        | none => exact absurd hl hmt
        | some c =>
          rw [show coinFor m (parse_symbol_from_filename g.name) = c by
            simp [coinFor, hl]]
          exact hrank (_, c) (lookupSym_mem hl)
    show ((buildGo m files []).1.insertionSort rowLE).Pairwise _
    refine hsort.imp_of_mem ?_
    intro a b ha hb hle hun
    by_contra hbm
    have h1 := (hfact a ha).1 hun
    have h2 := (hfact b hb).2 hbm
    rcases hle with h | ⟨h, _⟩ <;> omega

/-- Witness for `unmatched_placeholder`: the spec's own worked example —
`btc` matched at rank 1, `xrp` unmatched and sorted last. -/
theorem unmatched_placeholder_witness :
    unmatchedRowsLast
      [⟨"btc-usd-max.csv", ["snapped_at"], [[("snapped_at", "t1")], [("snapped_at", "t2")]]⟩,
       ⟨"xrp-usd-max.csv", ["snapped_at"], [[("snapped_at", "t3")]]⟩]
      [("btc", ⟨"bitcoin", "Bitcoin", "btc", 1⟩)] :=
  (unmatched_placeholder
    [⟨"btc-usd-max.csv", ["snapped_at"], [[("snapped_at", "t1")], [("snapped_at", "t2")]]⟩,
     ⟨"xrp-usd-max.csv", ["snapped_at"], [[("snapped_at", "t3")]]⟩]
    [("btc", ⟨"bitcoin", "Bitcoin", "btc", 1⟩)] (by decide)).2

/-- **C4 counterexample**: when the first ingested file has an empty header
list (an empty CSV: `DictReader.fieldnames` is `None`), `base_headers` stays
empty and the *next* file's header is used, so "the base headers are taken
from the first ingested file" is false as stated. -/
theorem merged_headers_counterexample :
    (build_merged_rows
        [⟨"a-usd-max.csv", ([] : List String), []⟩,
         ⟨"b-usd-max.csv", ["x"], []⟩] []).1 = fixedHeaders ++ ["x"]
  ∧ (build_merged_rows
        [⟨"a-usd-max.csv", ([] : List String), []⟩,
         ⟨"b-usd-max.csv", ["x"], []⟩] []).1 ≠
      fixedHeaders ++ ([] : List String) := by
  constructor
  · decide
  · decide

/-- **C4** (amended): for every ranking map and file list (well-formed in
that a file parsed with an empty header list has no rows, as `DictReader`
guarantees), the sorted merged output is a permutation of — i.e. contains
exactly once — every input row of every file, transformed with
`source_file` set to its file's name and the base-header columns filled via
`row.get(k, "")` (the empty string when the column is missing); the merged
row count is the sum of the files' row counts; and the output header is the
five fixed columns followed by the base headers of the first file whose
header list is nonempty. -/
theorem merged_rows_complete (files : List InputFile) (m : SymbolMap)
    (hwf : ∀ f ∈ files, f.fieldnames = [] → f.rows = []) :
    ((build_merged_rows files m).2.1).Perm
      (files.flatMap fun f =>
        f.rows.map (mkMergedRow (coinFor m (parse_symbol_from_filename f.name))
          f.name (baseHeadersOf files)))
  ∧ ((build_merged_rows files m).2.1).length =
      (files.map fun f => f.rows.length).sum
  ∧ (build_merged_rows files m).1 = fixedHeaders ++ baseHeadersOf files
  ∧ (∀ (coin : RankedCoin) (src : String) (base : List String)
        (row : List (String × String)),
        (mkMergedRow coin src base row).source_file = src ∧
        (mkMergedRow coin src base row).fields =
          base.map fun k => (k, rowGet row k))
  ∧ (∀ (row : List (String × String)) (k : String),
        k ∉ row.map Prod.fst → rowGet row k = "") := by
  refine ⟨?_, ?_, ?_, fun _ _ _ _ => ⟨rfl, rfl⟩, rowGet_not_mem⟩
  · show ((buildGo m files []).1.insertionSort rowLE).Perm _
    rw [← buildGo_rows m files hwf]
    exact List.perm_insertionSort rowLE _
  · show ((buildGo m files []).1.insertionSort rowLE).length = _
    rw [(List.perm_insertionSort rowLE _).length_eq, buildGo_length]
  · show fixedHeaders ++ (buildGo m files []).2.2 = _
    rw [buildGo_base]
    simp

/-- Witness for `merged_rows_complete` at a concrete one-file input. -/
theorem merged_rows_complete_witness :
    ((build_merged_rows
        [⟨"btc-usd-max.csv", ["snapped_at"], [[("snapped_at", "t")]]⟩]
        [("btc", ⟨"bitcoin", "Bitcoin", "btc", 1⟩)]).2.1).length =
      (([⟨"btc-usd-max.csv", ["snapped_at"], [[("snapped_at", "t")]]⟩] :
        List InputFile).map fun f => f.rows.length).sum
  ∧ (build_merged_rows
        [⟨"btc-usd-max.csv", ["snapped_at"], [[("snapped_at", "t")]]⟩]
        [("btc", ⟨"bitcoin", "Bitcoin", "btc", 1⟩)]).1 =
      fixedHeaders ++ baseHeadersOf
        [⟨"btc-usd-max.csv", ["snapped_at"], [[("snapped_at", "t")]]⟩] := by
  have h := merged_rows_complete
    [⟨"btc-usd-max.csv", ["snapped_at"], [[("snapped_at", "t")]]⟩]
    [("btc", ⟨"bitcoin", "Bitcoin", "btc", 1⟩)] (by decide)
  exact ⟨h.2.1, h.2.2.1⟩

/-- **C1 counterexample**: two filenames that differ only in letter case tie
under the case-insensitive sort, so the (stable) inventory sort preserves
their listing order; permuting them changes which file fixes the output
schema, and the final output differs — permutation invariance is false as
stated. -/
theorem merge_determinism_counterexample :
    ([⟨"A-usd-max.csv", ["x"], []⟩, ⟨"a-usd-max.csv", ["y"], []⟩] :
        List InputFile).Perm
      [⟨"a-usd-max.csv", ["y"], []⟩, ⟨"A-usd-max.csv", ["x"], []⟩]
  ∧ pipelineMerge [⟨"A-usd-max.csv", ["x"], []⟩, ⟨"a-usd-max.csv", ["y"], []⟩] []
      ≠ pipelineMerge [⟨"a-usd-max.csv", ["y"], []⟩, ⟨"A-usd-max.csv", ["x"], []⟩] [] := by
  constructor
  · exact List.Perm.swap _ _ _
  · decide

/-- **C1** (amended): the merged row list is always sorted by the composite
key `(coin_rank asc, coin_symbol asc, snapped_at asc, empty first)`; and the
pipeline (case-insensitive inventory sort followed by the merge) maps any
two permutations of a directory listing to the same output, provided the
lowercased names of the glob-matching files are pairwise distinct. -/
theorem merge_sorted_and_deterministic :
    (∀ (files : List InputFile) (m : SymbolMap),
        List.Sorted rowLE (build_merged_rows files m).2.1)
  ∧ (∀ (l₁ l₂ : List InputFile) (m : SymbolMap), l₁.Perm l₂ →
      ((l₁.filter fun f => matchesGlob f.name).map fun f => pyLower f.name).Nodup →
      pipelineMerge l₁ m = pipelineMerge l₂ m) := by
  constructor
  · intro files m
    show List.Sorted rowLE ((buildGo m files []).1.insertionSort rowLE)
    exact List.sorted_insertionSort _ _
  · intro l₁ l₂ m hp hnd
    unfold pipelineMerge list_input_files
    rw [sortFiles_eq_of_perm (hp.filter _) hnd]

/-- Witness for `merge_sorted_and_deterministic`: two distinct filenames in
swapped order give identical pipeline output. -/
theorem merge_sorted_and_deterministic_witness :
    pipelineMerge [⟨"b-usd-max.csv", ["x"], [[("x", "1")]]⟩,
        ⟨"a-usd-max.csv", ["y"], [[("y", "2")]]⟩] []
      = pipelineMerge [⟨"a-usd-max.csv", ["y"], [[("y", "2")]]⟩,
        ⟨"b-usd-max.csv", ["x"], [[("x", "1")]]⟩] [] :=
  merge_sorted_and_deterministic.2 _ _ [] (List.Perm.swap _ _ _) (by decide)
